import Mathlib

/-!
Verification of the tracer-configuration aggregation pipeline of the
CodeQL action (source files `autobuild.ts` (init action part),
`upload-sarif.ts` (finish action part)).

The TypeScript source is shallowly embedded:
* strings stay strings, JS objects used as string-keyed maps become
  association lists in insertion order (JS objects enumerate string keys
  in insertion order);
* the filesystem becomes an explicit association list from path to file
  data, threaded through the functions that read and write files;
* `writeFileSync` failures are modelled by a `writeOk` oracle saying
  which paths are writable; a read fails exactly when the path is absent;
* bytes are `Nat` values (< 256 for all produced bytes), and the
  `Buffer` construction of the compound environment blob is modelled
  byte for byte, including the UTF-8 encoding of `"key=value\x00"`
  records and the `writeInt32LE` range check (which throws when the
  value does not fit a signed 32-bit integer).
-/

namespace CodeQLAction

/-- A per-language tracer configuration (type `TracerConfig` in
`autobuild.ts`).  The `spec` field is `Option String` because
`env['ODASA_TRACER_CONFIGURATION']` may be `undefined` in the source. -/
structure TracerConfig where
  spec : Option String
  env : List (String × String)
deriving DecidableEq

/-- Contents of a file: the compound spec file is text, the compound
environment blob is raw bytes. -/
inductive FileData where
  | text (s : String)
  | bin (bytes : List Nat)
deriving DecidableEq

/-- The filesystem, an association list from path to contents. -/
def FS := List (String × FileData)

instance : DecidableEq FS := fun a b => List.hasDecEq a b

/-- Read a file: `none` models an unreadable/absent path. -/
def readFile (fs : FS) (p : String) : Option FileData :=
  List.lookup p fs

/-- Model of `writeFileSync`: overwrite the entry for `p` or append a new one. -/
def setFile (fs : FS) (p : String) (d : FileData) : FS :=
  match fs with
  | [] => [(p, d)]
  | (q, e) :: rest => if q = p then (p, d) :: rest else (q, e) :: setFile rest p d

/-- Errors of the init-action pipeline (the source throws plain `Error`s;
the constructors name the distinct throw sites). -/
inductive AggError where
  /-- Thrown as `'Incompatible values in environment parameter ' + name + ...`. -/
  | conflict (name value1 value2 : String)
  /-- Raised when `fs.readFileSync` threw: the path was unreadable. -/
  | ioRead (p : String)
  /-- Raised when `fs.writeFileSync` threw for this path. -/
  | ioWrite (p : String)
  /-- Raised when `buffer.writeInt32LE` threw: the value does not fit in int32. -/
  | serializeOverflow
deriving DecidableEq

/-! ## String utilities modelling the JS primitives used by the source -/

/-- Split a character stream at `\n` or `\r\n`, as `split(/\r?\n/)` does.
The accumulator holds the current line reversed. -/
def splitOnNL : List Char → List (List Char)
  | [] => [[]]
  | c :: rest =>
    if c = '\n' then [] :: splitOnNL rest
    else
      match splitOnNL rest with
      | [] => [[c]]
      | p :: ps => (c :: p) :: ps

/-- Drop one trailing `'\r'`, if present. -/
def stripCR (cs : List Char) : List Char :=
  if cs.getLast? = some '\r' then cs.dropLast else cs

/-- Rebuild the line list: the regex `\r?\n` eats one optional `'\r'`
before each `'\n'`, i.e. one trailing `'\r'` of every piece but the last. -/
def splitLinesPieces : List (List Char) → List String
  | [] => []
  | [p] => [String.mk p]
  | p :: ps => String.mk (stripCR p) :: splitLinesPieces ps

/-- Model of `content.split(/\r?\n/)` from the spec-file reading loop: split at
every `'\n'`, each optionally preceded by one `'\r'` that is consumed
with it. -/
def splitLines (s : String) : List String :=
  splitLinesPieces (splitOnNL s.data)

/-- Model of `array.join('\n')`, used to write the compound spec file. -/
def joinLines : List String → String
  | [] => ""
  | [l] => l
  | l :: rest => l ++ "\n" ++ joinLines rest

/-- JS whitespace skipped by `parseInt`. -/
def isJsSpace (c : Char) : Bool :=
  c = ' ' || c = '\t' || c = '\n' || c = '\r' || c = '\x0b' || c = '\x0c'

/-- Value of the leading decimal-digit run; `none` when there is no digit
(`parseInt` returns `NaN` then). -/
def digitsPrefixVal (cs : List Char) : Option Nat :=
  let ds := cs.takeWhile Char.isDigit
  if ds.isEmpty then none
  else some (ds.foldl (fun a c => a * 10 + (c.toNat - 48)) 0)

/-- Model of `parseInt(s, 10)`: skip leading whitespace, optional sign, then the
longest digit prefix; `none` models `NaN`. -/
def jsParseInt (s : String) : Option Int :=
  match s.data.dropWhile (fun c => isJsSpace c) with
  | '-' :: rest => (digitsPrefixVal rest).map (fun n => -(n : Int))
  | '+' :: rest => (digitsPrefixVal rest).map (fun n => (n : Int))
  | cs => (digitsPrefixVal cs).map (fun n => (n : Int))

/-- Decimal digit character. -/
def digitChar (n : Nat) : Char := Char.ofNat (48 + n)

/-- Decimal digits of `n`, most significant first (`fuel ≥ n+1` suffices). -/
def natDigitsAux : Nat → Nat → List Char
  | 0, _ => []
  | fuel + 1, n =>
    if n < 10 then [digitChar n]
    else natDigitsAux fuel (n / 10) ++ [digitChar (n % 10)]

/-- Decimal rendering of a natural number, as `Number.prototype.toString(10)`
renders a non-negative integer. -/
def natToString (n : Nat) : String := String.mk (natDigitsAux (n + 1) n)

/-- Rendering of the running total count, as `Number.prototype.toString(10)` does: `none`
models `NaN` (produced when some input count failed to parse). -/
def jsNumToString : Option Int → String
  | none => "NaN"
  | some (Int.ofNat n) => natToString n
  | some (Int.negSucc n) => "-" ++ natToString (n + 1)

/-- JS number addition where `none` is `NaN` (absorbing). -/
def nanAdd : Option Int → Option Int → Option Int
  | some a, some b => some (a + b)
  | _, _ => none

/-! ## Extractor probe / tracer config filter (`tracerConfig`) -/

/-- The names in `CRITICAL_TRACER_VARS` (the stray holes in the array
literal only add `undefined` to the JS set, which no string key hits). -/
def criticalTracerVars : List String :=
  ["SEMMLE_PRELOAD_libtrace", "SEMMLE_RUNNER", "SEMMLE_COPY_EXECUTABLES_ROOT",
   "SEMMLE_DEPTRACE_SOCKET", "SEMMLE_JAVA_TOOL_OPTIONS"]

/-- One step of the filter loop in `tracerConfig`: keep `(key, value)` iff
the key is not the well-known configuration variable, the value is not
`undefined`, and the key is new to the ambient environment, critical, or
`CODEQL_`-prefixed. -/
def keepTracerVar (ambient : String → Option String) (key : String)
    (value : Option String) : Option (String × String) :=
  if key = "ODASA_TRACER_CONFIGURATION" then none
  else match value with
    | none => none
    | some v =>
      if ambient key = none ∨ key ∈ criticalTracerVars ∨ key.startsWith "CODEQL_"
      then some (key, v) else none

/-- The pure core of `tracerConfig` (`autobuild.ts` lines 119–143): given
the JSON-parsed captured environment (values may be `undefined`) and the
ambient `process.env`, build the `TracerConfig`.  The source has no throw
in this region: when the captured environment lacks
`ODASA_TRACER_CONFIGURATION`, `spec` is simply `undefined` (`none`). -/
def tracerConfigFromEnv (captured : List (String × Option String))
    (ambient : String → Option String) : TracerConfig :=
  { spec := (List.lookup "ODASA_TRACER_CONFIGURATION" captured).bind id
    env := captured.filterMap (fun e => keepTracerVar ambient e.1 e.2) }

/-! ## Environment merge (`concatTracerConfigs`, step 1) -/

/-- The nested merge loops of `concatTracerConfigs`: fold the entries of
all input configs (in iteration order) into an accumulator, throwing on a
name bound to a different value and skipping an identical rebinding.  The
source also tracks `envSize`; it always equals the length of the
accumulator, so the model drops it. -/
def mergeLoop (acc : List (String × String)) :
    List (String × String) → Except AggError (List (String × String))
  | [] => .ok acc
  | (name, value) :: rest =>
    match List.lookup name acc with
    | some v' =>
      if v' = value then mergeLoop acc rest
      else .error (.conflict name v' value)
    | none => mergeLoop (acc ++ [(name, value)]) rest

/-- Step 1 of `concatTracerConfigs`: merge the env mappings of all input
configs.  The two nested `for` loops traverse exactly the concatenation
of the per-config entry lists. -/
def mergeEnvs (configs : List (String × TracerConfig)) :
    Except AggError (List (String × String)) :=
  mergeLoop [] (configs.map (fun c => c.2.env)).flatten

/-- Holds when `(name, value)` occurs in the env of some input config. -/
def EnvEntry (configs : List (String × TracerConfig)) (name value : String) : Prop :=
  ∃ tc ∈ configs.map Prod.snd, (name, value) ∈ tc.env

/-- No two configs bind a shared name to different values. -/
def EnvAgrees (configs : List (String × TracerConfig)) : Prop :=
  ∀ name v1 v2, EnvEntry configs name v1 → EnvEntry configs name v2 → v1 = v2

/-- Two configs bind a shared name to different values. -/
def HasEnvConflict (configs : List (String × TracerConfig)) : Prop :=
  ∃ name v1 v2, EnvEntry configs name v1 ∧ EnvEntry configs name v2 ∧ v1 ≠ v2

/-! ## Language ordering (`concatTracerConfigs`, step 2) -/

/-- The reordering in `concatTracerConfigs` lines 169–176: if `"cpp"` is
present, swap it with the language at the last index (a plain index swap,
not a stable partition). -/
def swapCppLast (languages : List String) : List String :=
  match languages.findIdx? (fun l => l = "cpp") with
  | none => languages
  | some cppIndex =>
    match languages.getLast? with
    | none => languages
    | some lastLang =>
      (languages.set (languages.length - 1)
        (languages.getD cppIndex "cpp")).set cppIndex lastLang

/-! ## Compound environment blob encoding (`concatTracerConfigs`, step 4) -/

/-- Model of `Buffer.writeInt32LE`: the four little-endian bytes of `n`, throwing
(`serializeOverflow`) when `n` does not fit a signed 32-bit integer (all
written values here are non-negative). -/
def int32LE (n : Nat) : Except AggError (List Nat) :=
  if n < 2 ^ 31 then
    .ok [n % 256, n / 256 % 256, n / 65536 % 256, n / 16777216 % 256]
  else .error .serializeOverflow

/-- UTF-8 encoding of one character (1–4 bytes). -/
def utf8Bytes (c : Char) : List Nat :=
  let n := c.toNat
  if n < 128 then [n]
  else if n < 2048 then [192 + n / 64, 128 + n % 64]
  else if n < 65536 then [224 + n / 4096, 128 + n / 64 % 64, 128 + n % 64]
  else [240 + n / 262144, 128 + n / 4096 % 64, 128 + n / 64 % 64, 128 + n % 64]

/-- UTF-8 encoding of a string, as `new Buffer(s, 'utf8')` produces it. -/
def stringUtf8 (s : String) : List Nat :=
  (s.data.map utf8Bytes).flatten

/-- The bytes of one blob record: `"key=value\x00"` in UTF-8. -/
def recordBytes (key value : String) : List Nat :=
  stringUtf8 (key ++ "=" ++ value ++ "\x00")

/-- The length-prefixed records of the blob body, in env iteration order. -/
def encodeEntries : List (String × String) → Except AggError (List Nat)
  | [] => .ok []
  | (key, value) :: rest =>
    match int32LE (recordBytes key value).length with
    | .error e => .error e
    | .ok size =>
      match encodeEntries rest with
      | .error e => .error e
      | .ok more => .ok (size ++ recordBytes key value ++ more)

/-- The full compound environment blob: 4-byte little-endian entry count,
then the length-prefixed records. -/
def encodeBlob (env : List (String × String)) : Except AggError (List Nat) :=
  match int32LE env.length with
  | .error e => .error e
  | .ok count =>
    match encodeEntries env with
    | .error e => .error e
    | .ok body => .ok (count ++ body)

/-! ## Spec-file concatenation and the full aggregator (`concatTracerConfigs`) -/

/-- Path `path.resolve(util.workspaceFolder(), 'compound-spec')`. -/
def specPath (ws : String) : String := ws ++ "/compound-spec"

/-- Path `spec + '.environment'`. -/
def blobPath (ws : String) : String := specPath ws ++ ".environment"

/-- Path `path.resolve(util.workspaceFolder(), 'compound-build-tracer.log')`. -/
def logPath (ws : String) : String := ws ++ "/compound-build-tracer.log"

/-- The spec-file reading loop (step 3): for each language in concatenation
order, look up its config, read its spec file, add `parseInt(lines[1], 10)`
to the running total (`NaN`-absorbing) and append `lines.slice(2)`.
`configs[lang]` being `undefined`, or `spec` being `undefined`, makes
`readFileSync` throw, modelled as an `ioRead` error. -/
def readSpecsLoop (configs : List (String × TracerConfig)) (fs : FS) :
    List String → Option Int → List String → Except AggError (Option Int × List String)
  | [], totalCount, totalLines => .ok (totalCount, totalLines)
  | lang :: rest, totalCount, totalLines =>
    match (List.lookup lang configs).bind TracerConfig.spec with
    | none => .error (.ioRead lang)
    | some p =>
      match readFile fs p with
      | some (.text content) =>
        let lines := splitLines content
        let count := match lines with
          | _ :: line1 :: _ => jsParseInt line1
          | _ => none
        readSpecsLoop configs fs rest (nanAdd totalCount count) (totalLines ++ lines.drop 2)
      | _ => .error (.ioRead p)

/-- Model of `concatTracerConfigs` (`autobuild.ts` lines 145–209): merge the envs,
order the languages with `"cpp"` last, concatenate the spec files, write
the compound spec file, then encode and write the compound environment
blob.  The filesystem after the call is returned alongside the result, so
failures occurring after the first write are observable. -/
def concatTracerConfigs (ws : String) (configs : List (String × TracerConfig))
    (fs : FS) (writeOk : String → Bool) : Except AggError TracerConfig × FS :=
  match mergeEnvs configs with
  | .error e => (.error e, fs)
  | .ok env =>
    let languages := swapCppLast (configs.map Prod.fst)
    match readSpecsLoop configs fs languages (some 0) [] with
    | .error e => (.error e, fs)
    | .ok (totalCount, totalLines) =>
      let newSpecContent := logPath ws :: jsNumToString totalCount :: totalLines
      if writeOk (specPath ws) then
        let fs1 := setFile fs (specPath ws) (.text (joinLines newSpecContent))
        match encodeBlob env with
        | .error e => (.error e, fs1)
        | .ok blob =>
          if writeOk (blobPath ws) then
            (.ok { spec := some (specPath ws), env := env },
             setFile fs1 (blobPath ws) (.bin blob))
          else (.error (.ioWrite (blobPath ws)), fs1)
      else (.error (.ioWrite (specPath ws)), fs)

/-- The traced-language step of the init action's `run` (`autobuild.ts`
lines 287–310): the aggregator runs only behind the guard
`tracedLanguageKeys.length > 0`; with no traced language the result is the
explicit "no compound configuration" outcome (`none`) and the filesystem
is untouched.  (The platform-specific injection only exports environment
variables, which are out of this model.) -/
def initTracedPhase (ws : String) (tracedLanguages : List (String × TracerConfig))
    (fs : FS) (writeOk : String → Bool) : Except AggError (Option TracerConfig) × FS :=
  if tracedLanguages.length > 0 then
    match concatTracerConfigs ws tracedLanguages fs writeOk with
    | (.ok tc, fs') => (.ok (some tc), fs')
    | (.error e, fs') => (.error e, fs')
  else (.ok none, fs)

/-! ## Blob decoder

The source never decodes the blob (the native runtime does); the decoder
below follows the format stated by the spec: a 4-byte little-endian entry
count, then for each entry a 4-byte little-endian length `L` and `L` bytes
being the UTF-8 encoding of `"key=value\x00"`. -/

/-- Read a 4-byte little-endian non-negative integer. -/
def readInt32LE : List Nat → Option (Nat × List Nat)
  | b0 :: b1 :: b2 :: b3 :: rest =>
    some (b0 + 256 * b1 + 65536 * b2 + 16777216 * b3, rest)
  | _ => none

/-- Decode one UTF-8 character from the front of a byte stream. -/
def decodeUtf8Char : List Nat → Option (Char × List Nat)
  | [] => none
  | b0 :: rest =>
    if b0 < 128 then some (Char.ofNat b0, rest)
    else if b0 < 192 then none
    else if b0 < 224 then
      match rest with
      | b1 :: rest' =>
        if 128 ≤ b1 ∧ b1 < 192 then
          some (Char.ofNat ((b0 - 192) * 64 + (b1 - 128)), rest')
        else none
      | _ => none
    else if b0 < 240 then
      match rest with
      | b1 :: b2 :: rest' =>
        if (128 ≤ b1 ∧ b1 < 192) ∧ (128 ≤ b2 ∧ b2 < 192) then
          some (Char.ofNat ((b0 - 224) * 4096 + (b1 - 128) * 64 + (b2 - 128)), rest')
        else none
      | _ => none
    else
      match rest with
      | b1 :: b2 :: b3 :: rest' =>
        if (128 ≤ b1 ∧ b1 < 192) ∧ (128 ≤ b2 ∧ b2 < 192) ∧ (128 ≤ b3 ∧ b3 < 192) then
          some (Char.ofNat ((b0 - 240) * 262144 + (b1 - 128) * 4096
            + (b2 - 128) * 64 + (b3 - 128)), rest')
        else none
      | _ => none

/-- Decode a whole byte list as UTF-8 (fuel-indexed; one unit per char). -/
def utf8DecodeAux : Nat → List Nat → Option (List Char)
  | _, [] => some []
  | 0, _ :: _ => none
  | fuel + 1, bs =>
    match decodeUtf8Char bs with
    | none => none
    | some (c, rest) =>
      match utf8DecodeAux fuel rest with
      | none => none
      | some cs => some (c :: cs)

/-- Decode a complete byte list as a UTF-8 string. -/
def utf8DecodeString (bs : List Nat) : Option String :=
  (utf8DecodeAux bs.length bs).map String.mk

/-- Split a character list at its first `'='`. -/
def splitAtEq : List Char → Option (List Char × List Char)
  | [] => none
  | c :: rest =>
    if c = '=' then some ([], rest)
    else (splitAtEq rest).map (fun kv => (c :: kv.1, kv.2))

/-- Parse one decoded record `"key=value\x00"` into its key/value pair:
the trailing NUL is dropped and the rest splits at the first `'='`. -/
def parseRecord (s : String) : Option (String × String) :=
  match s.data.reverse with
  | [] => none
  | last :: revBody =>
    if last = '\x00' then
      (splitAtEq revBody.reverse).map (fun kv => (String.mk kv.1, String.mk kv.2))
    else none

/-- Decode `count` length-prefixed records, requiring exact consumption. -/
def decodeEntries : Nat → List Nat → Option (List (String × String))
  | 0, [] => some []
  | 0, _ :: _ => none
  | count + 1, bs =>
    match readInt32LE bs with
    | none => none
    | some (len, rest) =>
      if (rest.take len).length = len then
        match utf8DecodeString (rest.take len) with
        | none => none
        | some s =>
          match parseRecord s with
          | none => none
          | some entry =>
            match decodeEntries count (rest.drop len) with
            | none => none
            | some more => some (entry :: more)
      else none

/-- Decode a compound environment blob back into a key/value list. -/
def decodeBlob (bs : List Nat) : Option (List (String × String)) :=
  match readInt32LE bs with
  | none => none
  | some (count, rest) => decodeEntries count rest

/-! ## Finish action (`upload-sarif.ts`, `run` of the finish part) -/

/-- The externally visible steps of the finish action's `run`, in program
order. -/
inductive FinishEvent where
  | loadConfig
  | clearTracerConfiguration
  | makeSarifDir
  | finalizeDatabases
  | analyzeDatabases
  | uploadResults
deriving DecidableEq

/-- The order of steps executed by the finish action's `run`
(`upload-sarif.ts` lines 114–147): the config is loaded, then
`ODASA_TRACER_CONFIGURATION` is exported empty and deleted, the SARIF
directory is created, databases are finalized, queries are analyzed, and
results are uploaded when requested. -/
def finishRunEvents (upload : Bool) : List FinishEvent :=
  [.loadConfig, .clearTracerConfiguration, .makeSarifDir,
   .finalizeDatabases, .analyzeDatabases] ++ if upload then [.uploadResults] else []

/-! ## Association-list helper lemmas -/

theorem lookup_mem {α β : Type} [BEq α] [LawfulBEq α] {l : List (α × β)} {a : α} {b : β}
    (h : List.lookup a l = some b) : (a, b) ∈ l := by
  induction l with
  | nil => simp [List.lookup] at h
  | cons p rest ih =>
    obtain ⟨k, w⟩ := p
    rw [List.lookup_cons] at h
    by_cases hk : a == k
    · simp [hk] at h
      subst h
      simp [Nat.eq_of_beq_eq_true, eq_of_beq hk]
    · simp [hk] at h
      exact List.mem_cons_of_mem _ (ih h)

theorem not_mem_of_lookup_eq_none {α β : Type} [BEq α] [LawfulBEq α]
    {l : List (α × β)} {a : α} (h : List.lookup a l = none) :
    ∀ b, (a, b) ∉ l := by
  induction l with
  | nil => simp
  | cons p rest ih =>
    obtain ⟨k, w⟩ := p
    rw [List.lookup_cons] at h
    by_cases hk : (a == k) = true
    · simp [hk] at h
    · rw [Bool.not_eq_true] at hk
      simp only [List.lookup_cons, hk] at h
      intro b hb
      rcases List.mem_cons.mp hb with he | hm
      · exfalso
        have hak : a = k := congrArg Prod.fst he
        rw [hak] at hk
        simp at hk
      · exact ih h b hm

/-- In an association list with no duplicate keys, a key determines its
value. -/
theorem nodupKeys_value_eq {l : List (String × String)}
    (hnd : (l.map Prod.fst).Nodup) {n v1 v2 : String}
    (h1 : (n, v1) ∈ l) (h2 : (n, v2) ∈ l) : v1 = v2 := by
  induction l with
  | nil => simp at h1
  | cons p rest ih =>
    simp only [List.map_cons, List.nodup_cons] at hnd
    rcases List.mem_cons.mp h1 with e1 | m1 <;> rcases List.mem_cons.mp h2 with e2 | m2
    · rw [← e1] at e2
      exact (Prod.mk.injEq _ _ _ _ ▸ e2).2.symm ▸ rfl
    · exfalso
      exact hnd.1 (e1 ▸ (List.mem_map.mpr ⟨(n, v2), m2, by simp [← e1]⟩))
    · exfalso
      exact hnd.1 (e2 ▸ (List.mem_map.mpr ⟨(n, v1), m1, by simp [← e2]⟩))
    · exact ih hnd.2 m1 m2

/-! ## Merge lemmas -/

/-- All same-key entries of a pool carry equal values. -/
def EntriesAgree (l : List (String × String)) : Prop :=
  ∀ n v1 v2, (n, v1) ∈ l → (n, v2) ∈ l → v1 = v2

theorem mergeLoop_ok_mem {rest : List (String × String)} :
    ∀ {acc m}, mergeLoop acc rest = .ok m →
      (∀ p ∈ acc, p ∈ m) ∧ (∀ p ∈ rest, p ∈ m) ∧ (∀ p ∈ m, p ∈ acc ∨ p ∈ rest) := by
  induction rest with
  | nil =>
    intro acc m h
    simp only [mergeLoop, Except.ok.injEq] at h
    subst h
    exact ⟨fun p hp => hp, by simp, fun p hp => Or.inl hp⟩
  | cons e rest ih =>
    intro acc m h
    obtain ⟨name, value⟩ := e
    simp only [mergeLoop] at h
    split at h
    · rename_i v' hl
      split at h
      · rename_i hv
        obtain ⟨h1, h2, h3⟩ := ih h
        refine ⟨h1, ?_, fun p hp => (h3 p hp).imp id (List.mem_cons_of_mem _)⟩
        intro p hp
        rcases List.mem_cons.mp hp with hp | hp
        · subst hp
          exact h1 _ (hv ▸ lookup_mem hl)
        · exact h2 p hp
      · exact absurd h (by simp)
    · rename_i hl
      obtain ⟨h1, h2, h3⟩ := ih h
      refine ⟨fun p hp => h1 p (by simp [hp]), ?_, ?_⟩
      · intro p hp
        rcases List.mem_cons.mp hp with hp | hp
        · subst hp
          exact h1 _ (by simp)
        · exact h2 p hp
      · intro p hp
        rcases h3 p hp with hp' | hp'
        · rcases List.mem_append.mp hp' with hp'' | hp''
          · exact Or.inl hp''
          · simp at hp''
            simp [hp'']
        · exact Or.inr (List.mem_cons_of_mem _ hp')

theorem mergeLoop_ok_nodupKeys {rest : List (String × String)} :
    ∀ {acc m}, (acc.map Prod.fst).Nodup → mergeLoop acc rest = .ok m →
      (m.map Prod.fst).Nodup := by
  induction rest with
  | nil =>
    intro acc m hnd h
    simp only [mergeLoop, Except.ok.injEq] at h
    exact h ▸ hnd
  | cons e rest ih =>
    intro acc m hnd h
    obtain ⟨name, value⟩ := e
    simp only [mergeLoop] at h
    split at h
    · rename_i v' hl
      split at h
      · exact ih hnd h
      · exact absurd h (by simp)
    · rename_i hl
      refine ih ?_ h
      rw [List.map_append, List.nodup_append]
      refine ⟨hnd, by simp, ?_⟩
      intro a ha
      simp only [List.map_cons, List.map_nil, List.mem_singleton]
      intro hb
      subst hb
      rcases List.mem_map.mp ha with ⟨⟨k, w⟩, hkw, hk⟩
      simp only at hk
      subst hk
      exact absurd hkw (not_mem_of_lookup_eq_none hl w)

theorem mergeLoop_error {rest : List (String × String)} :
    ∀ {acc e}, mergeLoop acc rest = .error e →
      ∃ n v1 v2, e = .conflict n v1 v2 ∧ v1 ≠ v2 ∧
        ((n, v1) ∈ acc ∨ (n, v1) ∈ rest) ∧ (n, v2) ∈ rest := by
  induction rest with
  | nil =>
    intro acc e h
    simp [mergeLoop] at h
  | cons p rest ih =>
    intro acc e h
    obtain ⟨name, value⟩ := p
    simp only [mergeLoop] at h
    split at h
    · rename_i v' hl
      split at h
      · obtain ⟨n, v1, v2, he, hne, hin, hv2⟩ := ih h
        exact ⟨n, v1, v2, he, hne, hin.imp id (List.mem_cons_of_mem _),
          List.mem_cons_of_mem _ hv2⟩
      · rename_i hv
        refine ⟨name, v', value, ?_, hv, Or.inl (lookup_mem hl), by simp⟩
        simpa using h.symm
    · rename_i hl
      obtain ⟨n, v1, v2, he, hne, hin, hv2⟩ := ih h
      refine ⟨n, v1, v2, he, hne, ?_, List.mem_cons_of_mem _ hv2⟩
      rcases hin with hin | hin
      · rcases List.mem_append.mp hin with hin' | hin'
        · exact Or.inl hin'
        · simp at hin'
          simp [hin']
      · exact Or.inr (List.mem_cons_of_mem _ hin)

theorem entriesAgree_mono {l l' : List (String × String)}
    (hsub : ∀ p, p ∈ l' → p ∈ l) (h : EntriesAgree l) : EntriesAgree l' :=
  fun n v1 v2 h1 h2 => h n v1 v2 (hsub _ h1) (hsub _ h2)

theorem mergeLoop_ok_of_agree {rest : List (String × String)} :
    ∀ {acc}, EntriesAgree (acc ++ rest) → ∃ m, mergeLoop acc rest = .ok m := by
  induction rest with
  | nil =>
    intro acc _
    exact ⟨acc, rfl⟩
  | cons p rest ih =>
    intro acc hag
    obtain ⟨name, value⟩ := p
    have hstep : mergeLoop acc ((name, value) :: rest) =
        match List.lookup name acc with
        | some v' =>
          if v' = value then mergeLoop acc rest
          else .error (.conflict name v' value)
        | none => mergeLoop (acc ++ [(name, value)]) rest := rfl
    cases hl : List.lookup name acc with
    | some v' =>
      have hv : v' = value := by
        refine hag name v' value ?_ (by simp)
        exact List.mem_append.mpr (Or.inl (lookup_mem hl))
      obtain ⟨m, hm⟩ := ih (entriesAgree_mono (fun q hq =>
        List.mem_append.mpr ((List.mem_append.mp hq).imp id (List.mem_cons_of_mem _))) hag)
      refine ⟨m, ?_⟩
      rw [hstep, hl]
      simpa [hv] using hm
    | none =>
      obtain ⟨m, hm⟩ := ih (show EntriesAgree ((acc ++ [(name, value)]) ++ rest) by
        rw [List.append_assoc, List.singleton_append]
        exact hag)
      refine ⟨m, ?_⟩
      rw [hstep, hl]
      exact hm

theorem envEntry_iff {configs : List (String × TracerConfig)} {n v : String} :
    EnvEntry configs n v ↔ (n, v) ∈ (configs.map (fun c => c.2.env)).flatten := by
  unfold EnvEntry
  rw [List.mem_flatten]
  constructor
  · rintro ⟨tc, htc, hm⟩
    rcases List.mem_map.mp htc with ⟨c, hc, rfl⟩
    exact ⟨c.2.env, List.mem_map.mpr ⟨c, hc, rfl⟩, hm⟩
  · rintro ⟨l, hl, hm⟩
    rcases List.mem_map.mp hl with ⟨c, hc, rfl⟩
    exact ⟨c.2, List.mem_map.mpr ⟨c, hc, rfl⟩, hm⟩

theorem mergeEnvs_ok_mem {configs : List (String × TracerConfig)}
    {m : List (String × String)} (h : mergeEnvs configs = .ok m) (n v : String) :
    (n, v) ∈ m ↔ EnvEntry configs n v := by
  have h' : mergeLoop [] ((configs.map (fun c => c.2.env)).flatten) = .ok m := h
  obtain ⟨_, h2, h3⟩ := mergeLoop_ok_mem h'
  constructor
  · intro hm
    rcases h3 _ hm with hc | hc
    · simp at hc
    · exact envEntry_iff.mpr hc
  · intro he
    exact h2 _ (envEntry_iff.mp he)

theorem mergeEnvs_ok_nodupKeys {configs : List (String × TracerConfig)}
    {m : List (String × String)} (h : mergeEnvs configs = .ok m) :
    (m.map Prod.fst).Nodup := by
  have h' : mergeLoop [] ((configs.map (fun c => c.2.env)).flatten) = .ok m := h
  exact mergeLoop_ok_nodupKeys (by simp) h'

theorem mergeEnvs_conflict_error {configs : List (String × TracerConfig)}
    (hc : HasEnvConflict configs) :
    ∃ n v1 v2, mergeEnvs configs = .error (.conflict n v1 v2) ∧ v1 ≠ v2 ∧
      EnvEntry configs n v1 ∧ EnvEntry configs n v2 := by
  obtain ⟨n, v1, v2, he1, he2, hne⟩ := hc
  cases hres : mergeEnvs configs with
  | ok m =>
    exfalso
    have h1 := (mergeEnvs_ok_mem hres n v1).mpr he1
    have h2 := (mergeEnvs_ok_mem hres n v2).mpr he2
    exact hne (nodupKeys_value_eq (mergeEnvs_ok_nodupKeys hres) h1 h2)
  | error e =>
    have hres' : mergeLoop [] ((configs.map (fun c => c.2.env)).flatten) = .error e := hres
    obtain ⟨n', v1', v2', heq, hne', hin, hv2⟩ := mergeLoop_error hres'
    subst heq
    refine ⟨n', v1', v2', rfl, hne', ?_, envEntry_iff.mpr hv2⟩
    rcases hin with hin | hin
    · simp at hin
    · exact envEntry_iff.mpr hin

theorem mergeEnvs_ok_of_agree {configs : List (String × TracerConfig)}
    (hag : EnvAgrees configs) : ∃ m, mergeEnvs configs = .ok m := by
  refine @mergeLoop_ok_of_agree _ [] ?_
  intro n v1 v2 h1 h2
  rw [List.nil_append] at h1 h2
  exact hag n v1 v2 (envEntry_iff.mpr h1) (envEntry_iff.mpr h2)

theorem envEntry_of_perm {configs configs' : List (String × TracerConfig)}
    (h : configs.Perm configs') {n v : String} :
    EnvEntry configs' n v → EnvEntry configs n v := by
  rintro ⟨tc, htc, hm⟩
  exact ⟨tc, ((h.map Prod.snd).mem_iff).mpr htc, hm⟩

/-- C4: In every input whose configs bind a shared variable name to two
differing values, `concatTracerConfigs`' merge step fails with the conflict
error carrying a variable name and its two distinct values (each of which
really occurs for that name in some input config); and whenever all
rebindings are identical (idempotent union), the merge succeeds and never
silently picks a value. -/
theorem env_conflict_always_detected (configs : List (String × TracerConfig)) :
    (HasEnvConflict configs →
      ∃ n v1 v2, mergeEnvs configs = .error (.conflict n v1 v2) ∧ v1 ≠ v2 ∧
        EnvEntry configs n v1 ∧ EnvEntry configs n v2) ∧
    (EnvAgrees configs → ∃ m, mergeEnvs configs = .ok m) :=
  ⟨mergeEnvs_conflict_error, mergeEnvs_ok_of_agree⟩

/-- Witness for C4 at a concrete conflicting input. -/
theorem env_conflict_always_detected_witness :
    ∃ n v1 v2,
      mergeEnvs [("a", ⟨some "s", [("X", "1")]⟩), ("b", ⟨some "t", [("X", "2")]⟩)] =
        .error (.conflict n v1 v2) ∧ v1 ≠ v2 ∧
      EnvEntry [("a", ⟨some "s", [("X", "1")]⟩), ("b", ⟨some "t", [("X", "2")]⟩)] n v1 ∧
      EnvEntry [("a", ⟨some "s", [("X", "1")]⟩), ("b", ⟨some "t", [("X", "2")]⟩)] n v2 :=
  (env_conflict_always_detected _).1
    ⟨"X", "1", "2", ⟨⟨some "s", [("X", "1")]⟩, by decide, by decide⟩,
      ⟨⟨some "t", [("X", "2")]⟩, by decide, by decide⟩, by decide⟩

/-- C7: For every conflict-free input, merging in any iteration order
(any permutation of the input mapping) succeeds and yields the same merged
environment as a set of key/value pairs. -/
theorem merge_order_independent (configs configs' : List (String × TracerConfig))
    (hperm : configs.Perm configs') (hag : EnvAgrees configs) :
    ∃ m m', mergeEnvs configs = .ok m ∧ mergeEnvs configs' = .ok m' ∧
      ∀ n v, ((n, v) ∈ m ↔ (n, v) ∈ m') := by
  have hag' : EnvAgrees configs' := fun n v1 v2 h1 h2 =>
    hag n v1 v2 (envEntry_of_perm hperm h1) (envEntry_of_perm hperm h2)
  obtain ⟨m, hm⟩ := mergeEnvs_ok_of_agree hag
  obtain ⟨m', hm'⟩ := mergeEnvs_ok_of_agree hag'
  refine ⟨m, m', hm, hm', fun n v => ?_⟩
  rw [mergeEnvs_ok_mem hm, mergeEnvs_ok_mem hm']
  exact ⟨fun h => envEntry_of_perm hperm.symm h, fun h => envEntry_of_perm hperm h⟩

/-- Witness for C7 at a concrete two-language input and its reversal. -/
theorem merge_order_independent_witness :
    ∃ m m',
      mergeEnvs [("a", ⟨some "s", [("X", "1")]⟩), ("b", ⟨some "t", [("Y", "2")]⟩)] = .ok m ∧
      mergeEnvs [("b", ⟨some "t", [("Y", "2")]⟩), ("a", ⟨some "s", [("X", "1")]⟩)] = .ok m' ∧
      ∀ n v, ((n, v) ∈ m ↔ (n, v) ∈ m') := by
  refine merge_order_independent _ _ (List.Perm.swap _ _ _) ?_
  intro n v1 v2 h1 h2
  obtain ⟨tc1, htc1, hm1⟩ := h1
  obtain ⟨tc2, htc2, hm2⟩ := h2
  simp only [List.map_cons, List.map_nil, List.mem_cons, List.not_mem_nil,
    or_false] at htc1 htc2
  rcases htc1 with rfl | rfl <;> rcases htc2 with rfl | rfl <;> simp_all

/-! ## Language-order lemmas (C1) -/

/-- C1 counterexample: With input order `["cpp", "a", "b"]` the computed
concatenation order is `["b", "a", "cpp"]`: the index swap moves the
originally-last language into cpp's slot, so `"a"` and `"b"` do *not*
retain their original relative order (a stable partition would give
`["a", "b", "cpp"]`). -/
theorem cpp_order_not_stable_partition :
    swapCppLast ["cpp", "a", "b"] = ["b", "a", "cpp"] ∧
    swapCppLast ["cpp", "a", "b"] ≠
      (["cpp", "a", "b"].filter (fun x => x ≠ "cpp")) ++ ["cpp"] := by
  decide

/-- C1 (amended): When `"cpp"` is among the input languages, the
concatenation order computed by the aggregator places `"cpp"` last, keeps
every language other than `"cpp"` and the originally-last one at its
original position, and puts the originally-last language at cpp's original
index — an index swap, not a stable partition. -/
theorem cpp_placed_last_by_index_swap (l : List String) (h : "cpp" ∈ l) :
    ∃ ci, List.findIdx? (fun x => x = "cpp") l = some ci ∧ ci < l.length ∧
      (swapCppLast l).length = l.length ∧
      (swapCppLast l).getLast? = some "cpp" ∧
      (∀ j, j < l.length → j ≠ ci → j ≠ l.length - 1 →
        (swapCppLast l)[j]? = l[j]?) ∧
      (swapCppLast l)[ci]? = l[l.length - 1]? := by
  have hne : l ≠ [] := List.ne_nil_of_mem h
  have hpos : 0 < l.length := List.length_pos.mpr hne
  have hlt : l.length - 1 < l.length := Nat.sub_lt hpos Nat.one_pos
  have hfi : List.findIdx (fun x => decide (x = "cpp")) l < l.length :=
    List.findIdx_lt_length_of_exists ⟨"cpp", h, by simp⟩
  set ci := List.findIdx (fun x => decide (x = "cpp")) l with hci
  have hfind : List.findIdx? (fun x => decide (x = "cpp")) l = some ci :=
    List.findIdx?_eq_some_iff_findIdx_eq.mpr ⟨hfi, rfl⟩
  have hcpp : l[ci] = "cpp" := by
    have := @List.findIdx_getElem _ (fun x => decide (x = "cpp")) l hfi
    simpa using this
  obtain ⟨lv, hlv⟩ : ∃ lv, l[l.length - 1]? = some lv := ⟨_, List.getElem?_eq_getElem hlt⟩
  have hlast : l.getLast? = some lv := by
    rw [List.getLast?_eq_getElem?, hlv]
  have hcpp? : l[ci]? = some "cpp" := by
    rw [List.getElem?_eq_getElem hfi, hcpp]
  have hgetD : l.getD ci "cpp" = "cpp" := by
    rw [List.getD_eq_getElem?_getD, hcpp?]
    rfl
  have hdef : swapCppLast l = (l.set (l.length - 1) "cpp").set ci lv := by
    unfold swapCppLast
    rw [hfind, hlast]
    show (l.set (l.length - 1) (l.getD ci "cpp")).set ci lv = _
    rw [hgetD]
  have hlen : (swapCppLast l).length = l.length := by
    rw [hdef, List.length_set, List.length_set]
  refine ⟨ci, hfind, hfi, hlen, ?_, ?_, ?_⟩
  · rw [List.getLast?_eq_getElem?, hlen, hdef]
    by_cases hc : ci = l.length - 1
    · have hlvcpp : lv = "cpp" := by
        rw [← hc] at hlv
        rw [hlv] at hcpp?
        exact Option.some.inj hcpp?
      rw [hc, hlvcpp]
      exact List.getElem?_set_self (by rw [List.length_set]; exact hlt)
    · rw [List.getElem?_set_ne hc, List.getElem?_set_self hlt]
  · intro j hj hjc hjl
    rw [hdef, List.getElem?_set_ne (fun hx => hjc hx.symm),
      List.getElem?_set_ne (fun hx => hjl hx.symm)]
  · rw [hdef, List.getElem?_set_self (by rw [List.length_set]; exact hfi), hlv]

/-- Witness for C1 at the concrete input `["x", "cpp", "y"]`. -/
theorem cpp_placed_last_by_index_swap_witness :
    "cpp" ∈ ["x", "cpp", "y"] ∧
    ∃ ci, List.findIdx? (fun x => x = "cpp") ["x", "cpp", "y"] = some ci ∧
      ci < (["x", "cpp", "y"] : List String).length ∧
      (swapCppLast ["x", "cpp", "y"]).length = (["x", "cpp", "y"] : List String).length ∧
      (swapCppLast ["x", "cpp", "y"]).getLast? = some "cpp" ∧
      (∀ j, j < (["x", "cpp", "y"] : List String).length → j ≠ ci →
        j ≠ (["x", "cpp", "y"] : List String).length - 1 →
        (swapCppLast ["x", "cpp", "y"])[j]? = (["x", "cpp", "y"] : List String)[j]?) ∧
      (swapCppLast ["x", "cpp", "y"])[ci]? =
        (["x", "cpp", "y"] : List String)[(["x", "cpp", "y"] : List String).length - 1]? :=
  ⟨by decide, cpp_placed_last_by_index_swap _ (by decide)⟩

/-! ## Probe behaviour on a missing configuration variable (C2) -/

/-- C2 counterexample: On a captured probe environment lacking
`ODASA_TRACER_CONFIGURATION`, the probe does not fail: it returns an
ordinary `TracerConfig` (here with the critical variable kept in `env`)
whose `spec` field is `undefined` (`none`) — there is no throw site for a
`MissingTracerConfig` error in the source. -/
theorem probe_missing_config_returns_config :
    tracerConfigFromEnv [("SEMMLE_RUNNER", some "x")] (fun _ => none) =
      { spec := none, env := [("SEMMLE_RUNNER", "x")] } := by
  decide

/-- C2 (amended): For every captured probe environment lacking
`ODASA_TRACER_CONFIGURATION`, `tracerConfig` returns (rather than fails)
a `TracerConfig` whose `spec` field is `undefined` (`none`); the filtered
`env` is produced as usual. -/
theorem probe_missing_config_spec_none (captured : List (String × Option String))
    (ambient : String → Option String)
    (h : List.lookup "ODASA_TRACER_CONFIGURATION" captured = none) :
    (tracerConfigFromEnv captured ambient).spec = none := by
  simp [tracerConfigFromEnv, h]

/-- Witness for C2 at a concrete captured environment. -/
theorem probe_missing_config_spec_none_witness :
    List.lookup "ODASA_TRACER_CONFIGURATION" [("SEMMLE_RUNNER", some "x")] = none ∧
    (tracerConfigFromEnv [("SEMMLE_RUNNER", some "x")] (fun _ => none)).spec = none :=
  ⟨by decide, probe_missing_config_spec_none _ _ (by decide)⟩

/-! ## When the finish action clears the spec-path variable (C9) -/

/-- C9 counterexample: In the finish action's step sequence, the
clearing of `ODASA_TRACER_CONFIGURATION` happens strictly before database
finalization starts (and hence before query analysis), contradicting the
claim that it is unset only after both have run. -/
theorem clear_tracer_config_not_after_analysis :
    List.indexOf FinishEvent.clearTracerConfiguration (finishRunEvents false) <
      List.indexOf FinishEvent.finalizeDatabases (finishRunEvents false) ∧
    List.indexOf FinishEvent.clearTracerConfiguration (finishRunEvents false) <
      List.indexOf FinishEvent.analyzeDatabases (finishRunEvents false) := by
  decide

/-- C9 (amended): The finish action clears (exports empty and deletes)
`ODASA_TRACER_CONFIGURATION` at the start of the finalize/analyze stage:
the clearing step precedes database finalization, which precedes query
analysis, whether or not results are uploaded afterwards. -/
theorem clear_tracer_config_at_start_of_finish (upload : Bool) :
    FinishEvent.clearTracerConfiguration ∈ finishRunEvents upload ∧
    List.indexOf FinishEvent.clearTracerConfiguration (finishRunEvents upload) <
      List.indexOf FinishEvent.finalizeDatabases (finishRunEvents upload) ∧
    List.indexOf FinishEvent.finalizeDatabases (finishRunEvents upload) <
      List.indexOf FinishEvent.analyzeDatabases (finishRunEvents upload) := by
  cases upload <;> decide

/-! ## Empty input (C8, C10) -/

/-- C8: With no traced language, the init action's traced phase
produces the explicit "no compound configuration" outcome (`none`), does
not run the aggregator, and leaves the filesystem untouched: no compound
spec file and no environment blob is created. -/
theorem empty_traced_languages_no_compound (ws : String) (fs : FS)
    (writeOk : String → Bool) :
    initTracedPhase ws [] fs writeOk = (.ok none, fs) := rfl

/-- C10: Called directly on the empty mapping (bypassing the caller's
guard), `concatTracerConfigs` does *not* yield a "no compound
configuration" outcome: it writes a compound spec file whose second line
declares block count `0`, writes an environment blob consisting of the
four zero bytes of the little-endian entry count `0`, and returns an empty
merged env together with the compound spec path. -/
theorem aggregator_on_empty_input_writes_files (ws : String) (fs : FS) :
    concatTracerConfigs ws [] fs (fun _ => true) =
      (.ok { spec := some (specPath ws), env := [] },
       setFile (setFile fs (specPath ws) (.text (joinLines [logPath ws, "0"])))
         (blobPath ws) (.bin [0, 0, 0, 0])) := rfl

/-! ## Atomicity of the aggregator's writes (C3) -/

/-- C3 counterexample: When the compound spec file is writable but the
blob path is not, the aggregator fails *after* having written the compound
spec file: the returned filesystem contains the spec file and no blob, so
a failure in step 4 does leave a partial (spec-only) state behind. -/
theorem aggregator_partial_write_on_blob_failure :
    (concatTracerConfigs "w" [("java", ⟨some "p", []⟩)] [("p", .text "log\n0")]
        (fun q => q != blobPath "w")).1 = .error (.ioWrite (blobPath "w")) ∧
    readFile (concatTracerConfigs "w" [("java", ⟨some "p", []⟩)] [("p", .text "log\n0")]
        (fun q => q != blobPath "w")).2 (specPath "w") =
      some (.text "w/compound-build-tracer.log\n0") ∧
    readFile (concatTracerConfigs "w" [("java", ⟨some "p", []⟩)] [("p", .text "log\n0")]
        (fun q => q != blobPath "w")).2 (blobPath "w") = none :=
  ⟨rfl, rfl, rfl⟩

/-- C3 (amended): After `concatTracerConfigs` returns, the filesystem
is in one of exactly three states: untouched (every failure in the merge
step, the spec-reading step, or the compound-spec write itself), or both
the compound spec file and the blob written (success), or — when blob
serialization or the blob write fails after the compound spec file was
already written — the compound spec file alone, with no rollback.  The
first two alternatives are what the claim allows; the third refutes
all-or-nothing atomicity. -/
theorem aggregator_write_trichotomy (ws : String)
    (configs : List (String × TracerConfig)) (fs : FS) (writeOk : String → Bool) :
    (∃ e, concatTracerConfigs ws configs fs writeOk = (.error e, fs)) ∨
    (∃ tc sc bb, concatTracerConfigs ws configs fs writeOk =
      (.ok tc, setFile (setFile fs (specPath ws) (.text sc)) (blobPath ws) (.bin bb))) ∨
    (∃ e sc, concatTracerConfigs ws configs fs writeOk =
      (.error e, setFile fs (specPath ws) (.text sc))) := by
  simp only [concatTracerConfigs]
  split
  · exact Or.inl ⟨_, rfl⟩
  · split
    · exact Or.inl ⟨_, rfl⟩
    · split
      · split
        · exact Or.inr (Or.inr ⟨_, _, rfl⟩)
        · split
          · exact Or.inr (Or.inl ⟨_, _, _, rfl⟩)
          · exact Or.inr (Or.inr ⟨_, _, rfl⟩)
      · exact Or.inl ⟨_, rfl⟩

/-! ## Spec-file line lemmas (C5) -/

/-- A line that survives a join/split round trip unchanged: it contains no
newline and no carriage return. -/
def LineClean (l : String) : Prop := '\n' ∉ l.data ∧ '\r' ∉ l.data

instance (l : String) : Decidable (LineClean l) :=
  inferInstanceAs (Decidable ('\n' ∉ l.data ∧ '\r' ∉ l.data))

theorem splitOnNL_ne_nil (cs : List Char) : splitOnNL cs ≠ [] := by
  induction cs with
  | nil => simp [splitOnNL]
  | cons c rest ih =>
    simp only [splitOnNL]
    split
    · simp
    · split <;> simp

theorem splitOnNL_append {cs : List Char} (h : '\n' ∉ cs) :
    ∀ {s : List Char} {p ps}, splitOnNL s = p :: ps →
      splitOnNL (cs ++ s) = (cs ++ p) :: ps := by
  induction cs with
  | nil =>
    intro s p ps hs
    simpa using hs
  | cons c rest ih =>
    intro s p ps hs
    have hc : c ≠ '\n' := fun hx => h (hx ▸ List.mem_cons_self _ _)
    have h' : '\n' ∉ rest := fun hx => h (List.mem_cons_of_mem _ hx)
    simp only [List.cons_append, splitOnNL, if_neg hc]
    rw [show List.append rest s = rest ++ s from rfl, ih h' hs]

theorem splitOnNL_append_newline {cs s : List Char} (h : '\n' ∉ cs) :
    splitOnNL (cs ++ '\n' :: s) = cs :: splitOnNL s := by
  have hnl : splitOnNL ('\n' :: s) = [] :: splitOnNL s := by
    simp [splitOnNL]
  have happ := splitOnNL_append h hnl
  rw [List.append_nil] at happ
  exact happ

theorem stripCR_of_clean {cs : List Char} (h : '\r' ∉ cs) : stripCR cs = cs := by
  unfold stripCR
  rw [if_neg]
  intro hx
  exact h (List.mem_of_mem_getLast? (by rw [hx]; rfl))

theorem splitLines_joinLines : ∀ (ls : List String), ls ≠ [] →
    (∀ l ∈ ls, LineClean l) → splitLines (joinLines ls) = ls
  | [], hne, _ => absurd rfl hne
  | [l], _, h => by
    have hcl := h l (by simp)
    unfold splitLines joinLines
    have h0 : splitOnNL ([] : List Char) = [[]] := rfl
    have := @splitOnNL_append l.data hcl.1 [] [] [] h0
    rw [List.append_nil] at this
    rw [this]
    rfl
  | l :: l' :: ls', _, h => by
    have hcl := h l (by simp)
    have hrest : ∀ x ∈ l' :: ls', LineClean x := fun x hx =>
      h x (List.mem_cons_of_mem _ hx)
    have ih := splitLines_joinLines (l' :: ls') (by simp) hrest
    show splitLinesPieces (splitOnNL ((l ++ "\n" ++ joinLines (l' :: ls')).data)) =
      l :: l' :: ls'
    have hdata : (l ++ "\n" ++ joinLines (l' :: ls')).data =
        l.data ++ '\n' :: (joinLines (l' :: ls')).data := by
      rw [String.data_append, String.data_append, List.append_assoc]
      rfl
    rw [hdata, splitOnNL_append_newline hcl.1]
    obtain ⟨q, qs, hq⟩ : ∃ q qs, splitOnNL (joinLines (l' :: ls')).data = q :: qs := by
      cases hsp : splitOnNL (joinLines (l' :: ls')).data with
      | nil => exact absurd hsp (splitOnNL_ne_nil _)
      | cons q qs => exact ⟨q, qs, rfl⟩
    rw [hq]
    show String.mk (stripCR l.data) :: splitLinesPieces (q :: qs) = l :: l' :: ls'
    rw [stripCR_of_clean hcl.2]
    have : splitLinesPieces (q :: qs) = l' :: ls' := by
      rw [← hq]
      exact ih
    rw [this]

/-! ## Decimal rendering is newline-free -/

theorem mem_natDigitsAux {c : Char} : ∀ {fuel n : Nat},
    c ∈ natDigitsAux fuel n → ∃ m, m < 10 ∧ c = digitChar m := by
  intro fuel
  induction fuel with
  | zero =>
    intro n h
    simp [natDigitsAux] at h
  | succ fuel ih =>
    intro n h
    simp only [natDigitsAux] at h
    split at h
    · rename_i hn
      simp at h
      exact ⟨n, hn, h⟩
    · rcases List.mem_append.mp h with h | h
      · exact ih h
      · simp at h
        exact ⟨n % 10, Nat.mod_lt _ (by norm_num), h⟩

theorem digitChar_ne {m : Nat} (hm : m < 10) :
    digitChar m ≠ '\n' ∧ digitChar m ≠ '\r' := by
  interval_cases m <;> exact ⟨by decide, by decide⟩

theorem natToString_clean (n : Nat) : LineClean (natToString n) := by
  constructor <;> intro hmem <;>
    obtain ⟨m, hm, hc⟩ := mem_natDigitsAux hmem
  · exact (digitChar_ne hm).1 hc.symm
  · exact (digitChar_ne hm).2 hc.symm

theorem logPath_clean {ws : String} (hws : LineClean ws) : LineClean (logPath ws) := by
  constructor <;> intro hmem <;>
    rw [logPath, String.data_append] at hmem <;>
    rcases List.mem_append.mp hmem with hin | hin
  · exact hws.1 hin
  · exact absurd hin (by decide)
  · exact hws.2 hin
  · exact absurd hin (by decide)

/-! ## Reading well-formed spec files (C5) -/

/-- The language's config resolves to a readable spec file whose lines are
a log line, a count line parsing to `d.1`, and exactly `d.1` clean block
lines `d.2` (the shape §3 of the spec prescribes for tracer spec files). -/
def ReadsCleanSpec (fs : FS) (configs : List (String × TracerConfig))
    (lang : String) (d : Nat × List String) : Prop :=
  ∃ cfg p content line0 line1,
    List.lookup lang configs = some cfg ∧ cfg.spec = some p ∧
    readFile fs p = some (.text content) ∧
    splitLines content = line0 :: line1 :: d.2 ∧
    jsParseInt line1 = some (d.1 : Int) ∧
    d.2.length = d.1 ∧
    ∀ b ∈ d.2, LineClean b

theorem forall₂_mem_right {α β : Type} {R : α → β → Prop} :
    ∀ {l₁ : List α} {l₂ : List β}, List.Forall₂ R l₁ l₂ → ∀ b ∈ l₂, ∃ a, R a b := by
  intro l₁ l₂ h
  induction h with
  | nil => simp
  | cons hR hF ih =>
    intro b hb
    rcases List.mem_cons.mp hb with rfl | hb
    · exact ⟨_, hR⟩
    · exact ih b hb

theorem jsNumToString_coe (n : Nat) : jsNumToString (some (n : Int)) = natToString n := rfl

theorem readSpecsLoop_reads {fs : FS} {configs : List (String × TracerConfig)}
    {langs : List String} {data : List (Nat × List String)}
    (hF : List.Forall₂ (ReadsCleanSpec fs configs) langs data) :
    ∀ (acc : Int) (lines : List String),
      readSpecsLoop configs fs langs (some acc) lines =
        .ok (some (acc + ((data.map Prod.fst).sum : Nat)),
          lines ++ (data.map Prod.snd).flatten) := by
  induction hF with
  | nil =>
    intro acc lines
    simp [readSpecsLoop]
  | cons hR hF ih =>
    intro acc lines
    obtain ⟨cfg, p, content, line0, line1, hlk, hsp, hrd, hsplit, hparse, hlen, hcln⟩ := hR
    simp only [readSpecsLoop, hlk, Option.some_bind, hsp, hrd, hsplit, hparse, nanAdd,
      List.drop_succ_cons, List.drop_zero]
    rw [ih (acc + _) _]
    simp only [List.map_cons, List.sum_cons, List.flatten_cons, List.append_assoc,
      Nat.cast_add, Except.ok.injEq, Prod.mk.injEq, Option.some.injEq]
    refine ⟨?_, trivial⟩
    omega

/-- C5: For every input on which aggregation succeeds — conflict-free
envs, every spec file readable and of the §3 shape (`log`, count line
parsing to `n`, then exactly `n` newline-free block lines), serializable
blob — the written compound spec file's second line is the decimal
rendering of the exact sum of the per-language counts read from line 1 of
each input, and the following lines are exactly the concatenation of every
input's block lines in the step-2 concatenation order: exactly
sum-many lines. -/
theorem compound_spec_declared_count_is_sum (ws : String)
    (configs : List (String × TracerConfig)) (fs : FS)
    (env : List (String × String)) (blob : List Nat)
    (data : List (Nat × List String))
    (hws : LineClean ws)
    (hmerge : mergeEnvs configs = .ok env)
    (hread : List.Forall₂ (ReadsCleanSpec fs configs)
      (swapCppLast (configs.map Prod.fst)) data)
    (hblob : encodeBlob env = .ok blob) :
    concatTracerConfigs ws configs fs (fun _ => true) =
      (.ok { spec := some (specPath ws), env := env },
       setFile (setFile fs (specPath ws) (.text (joinLines
         (logPath ws :: natToString (data.map Prod.fst).sum ::
           (data.map Prod.snd).flatten))))
         (blobPath ws) (.bin blob)) ∧
    splitLines (joinLines (logPath ws :: natToString (data.map Prod.fst).sum ::
        (data.map Prod.snd).flatten)) =
      logPath ws :: natToString (data.map Prod.fst).sum ::
        (data.map Prod.snd).flatten ∧
    ((data.map Prod.snd).flatten).length = (data.map Prod.fst).sum := by
  have hloop := readSpecsLoop_reads hread 0 []
  rw [List.nil_append, zero_add] at hloop
  refine ⟨?_, ?_, ?_⟩
  · simp only [concatTracerConfigs, hmerge, hloop, hblob, jsNumToString_coe]
    rfl
  · refine splitLines_joinLines _ (by simp) ?_
    intro l hl
    rcases List.mem_cons.mp hl with rfl | hl
    · exact logPath_clean hws
    · rcases List.mem_cons.mp hl with rfl | hl
      · exact natToString_clean _
      · rw [List.mem_flatten] at hl
        obtain ⟨bl, hbl, hlin⟩ := hl
        rw [List.mem_map] at hbl
        obtain ⟨d, hd, rfl⟩ := hbl
        obtain ⟨lang, hR⟩ := forall₂_mem_right hread d hd
        obtain ⟨_, _, _, _, _, _, _, _, _, _, _, hcln⟩ := hR
        exact hcln l hlin
  · rw [List.length_flatten, List.map_map]
    refine congrArg List.sum (List.map_congr_left ?_)
    intro d hd
    obtain ⟨lang, hR⟩ := forall₂_mem_right hread d hd
    obtain ⟨_, _, _, _, _, _, _, _, _, _, hlen, _⟩ := hR
    exact hlen

/-- Witness for C5: one traced language (`cpp`) whose spec file declares
one block line. -/
theorem compound_spec_declared_count_is_sum_witness :
    concatTracerConfigs "w" [("cpp", ⟨some "sc", [("X", "1")]⟩)]
        [("sc", .text "log\n1\nc1")] (fun _ => true) =
      (.ok { spec := some (specPath "w"), env := [("X", "1")] },
       setFile (setFile [("sc", .text "log\n1\nc1")] (specPath "w")
         (.text (joinLines [logPath "w", natToString 1, "c1"])))
         (blobPath "w") (.bin [1, 0, 0, 0, 4, 0, 0, 0, 88, 61, 49, 0])) ∧
    splitLines (joinLines [logPath "w", natToString 1, "c1"]) =
      [logPath "w", natToString 1, "c1"] ∧
    (["c1"] : List String).length = 1 :=
  compound_spec_declared_count_is_sum "w" _ _ _ _ [(1, ["c1"])] (by decide) rfl
    (List.Forall₂.cons
      ⟨⟨some "sc", [("X", "1")]⟩, "sc", "log\n1\nc1", "log", "1",
        rfl, rfl, rfl, by decide, by decide, rfl, by decide⟩
      List.Forall₂.nil) rfl

/-! ## UTF-8 round trip (C6) -/

theorem toNat_ofNat_of_valid {n : Nat} (h : n.isValidChar) :
    (Char.ofNat n).toNat = n := by
  unfold Char.ofNat
  rw [dif_pos h]
  rfl

theorem char_valid_nat (c : Char) :
    c.toNat < 55296 ∨ 57343 < c.toNat ∧ c.toNat < 1114112 := c.valid

theorem decodeUtf8Char_encode (c : Char) (rest : List Nat) :
    decodeUtf8Char (utf8Bytes c ++ rest) = some (c, rest) := by
  have hv := char_valid_nat c
  by_cases h1 : c.toNat < 128
  · simp only [utf8Bytes, if_pos h1, List.cons_append, List.nil_append]
    simp only [decodeUtf8Char, if_pos h1]
    rw [Char.ofNat_toNat]
  · by_cases h2 : c.toNat < 2048
    · simp only [utf8Bytes, if_neg h1, if_pos h2, List.cons_append, List.nil_append]
      simp only [decodeUtf8Char]
      rw [if_neg (by omega), if_neg (by omega), if_pos (by omega),
        if_pos ⟨by omega, by omega⟩]
      have harith : (192 + c.toNat / 64 - 192) * 64 + (128 + c.toNat % 64 - 128) =
          c.toNat := by omega
      rw [harith, Char.ofNat_toNat]
    · by_cases h3 : c.toNat < 65536
      · simp only [utf8Bytes, if_neg h1, if_neg h2, if_pos h3, List.cons_append,
          List.nil_append]
        simp only [decodeUtf8Char]
        rw [if_neg (by omega), if_neg (by omega), if_neg (by omega),
          if_pos (by omega), if_pos ⟨⟨by omega, by omega⟩, by omega, by omega⟩]
        have harith : (224 + c.toNat / 4096 - 224) * 4096 +
            (128 + c.toNat / 64 % 64 - 128) * 64 + (128 + c.toNat % 64 - 128) =
            c.toNat := by omega
        rw [harith, Char.ofNat_toNat]
      · have h4 : c.toNat < 1114112 := by omega
        simp only [utf8Bytes, if_neg h1, if_neg h2, if_neg h3, List.cons_append,
          List.nil_append]
        simp only [decodeUtf8Char]
        rw [if_neg (by omega), if_neg (by omega), if_neg (by omega),
          if_neg (by omega), if_pos ⟨⟨by omega, by omega⟩, ⟨by omega, by omega⟩,
            by omega, by omega⟩]
        have harith : (240 + c.toNat / 262144 - 240) * 262144 +
            (128 + c.toNat / 4096 % 64 - 128) * 4096 +
            (128 + c.toNat / 64 % 64 - 128) * 64 + (128 + c.toNat % 64 - 128) =
            c.toNat := by omega
        rw [harith, Char.ofNat_toNat]

theorem utf8Bytes_length_pos (c : Char) : 1 ≤ (utf8Bytes c).length := by
  by_cases h1 : c.toNat < 128
  · simp [utf8Bytes, h1]
  · by_cases h2 : c.toNat < 2048 <;> by_cases h3 : c.toNat < 65536 <;>
      simp [utf8Bytes, h1, h2, h3]

theorem utf8Bytes_ne_nil (c : Char) : utf8Bytes c ≠ [] := by
  intro h
  have := utf8Bytes_length_pos c
  rw [h] at this
  simp at this

theorem utf8DecodeAux_encode : ∀ (cs : List Char) (fuel : Nat),
    cs.length ≤ fuel → utf8DecodeAux fuel ((cs.map utf8Bytes).flatten) = some cs := by
  intro cs
  induction cs with
  | nil =>
    intro fuel _
    cases fuel <;> rfl
  | cons c cs ih =>
    intro fuel hf
    cases fuel with
    | zero => simp at hf
    | succ fuel =>
      have hne : (((c :: cs).map utf8Bytes).flatten) =
          utf8Bytes c ++ (cs.map utf8Bytes).flatten := by
        simp
      rw [hne]
      have hcons : ∃ b bs, utf8Bytes c ++ (cs.map utf8Bytes).flatten = b :: bs := by
        cases hu : utf8Bytes c with
        | nil => exact absurd hu (utf8Bytes_ne_nil c)
        | cons b bs => exact ⟨b, bs ++ (cs.map utf8Bytes).flatten, by simp [hu]⟩
      obtain ⟨b, bs, hbs⟩ := hcons
      rw [hbs]
      simp only [utf8DecodeAux]
      rw [← hbs, decodeUtf8Char_encode]
      simp only [ih fuel (Nat.le_of_succ_le_succ hf)]

theorem utf8_flatten_length (cs : List Char) :
    cs.length ≤ ((cs.map utf8Bytes).flatten).length := by
  induction cs with
  | nil => simp
  | cons c cs ih =>
    simp only [List.map_cons, List.flatten_cons, List.length_append, List.length_cons]
    have := utf8Bytes_length_pos c
    omega

theorem utf8DecodeString_encode (s : String) :
    utf8DecodeString (stringUtf8 s) = some s := by
  unfold utf8DecodeString stringUtf8
  rw [utf8DecodeAux_encode s.data _ (utf8_flatten_length s.data)]
  rfl

theorem readInt32LE_int32LE {n : Nat} {bs : List Nat} (h : int32LE n = .ok bs)
    (rest : List Nat) : readInt32LE (bs ++ rest) = some (n, rest) := by
  unfold int32LE at h
  split at h
  · rename_i hlt
    have hb : bs = [n % 256, n / 256 % 256, n / 65536 % 256, n / 16777216 % 256] := by
      exact (Except.ok.inj h).symm
    subst hb
    simp only [List.cons_append, List.nil_append, readInt32LE, Option.some.injEq,
      Prod.mk.injEq]
    exact ⟨by omega, trivial⟩
  · exact absurd h (by simp)

theorem splitAtEq_encode {k : List Char} (hk : '=' ∉ k) (v : List Char) :
    splitAtEq (k ++ '=' :: v) = some (k, v) := by
  induction k with
  | nil => simp [splitAtEq]
  | cons c k ih =>
    have hc : c ≠ '=' := fun hx => hk (hx ▸ List.mem_cons_self _ _)
    have hk' : '=' ∉ k := fun hx => hk (List.mem_cons_of_mem _ hx)
    rw [List.cons_append]
    simp only [splitAtEq, if_neg hc]
    rw [ih hk']
    rfl

theorem parseRecord_encode {k v : String} (hk : '=' ∉ k.data) :
    parseRecord (k ++ "=" ++ v ++ "\x00") = some (k, v) := by
  unfold parseRecord
  have hdata : (k ++ "=" ++ v ++ "\x00").data =
      (k.data ++ '=' :: v.data) ++ ['\x00'] := by
    simp only [String.data_append, List.append_assoc, List.cons_append, List.nil_append]
  rw [hdata, List.reverse_append]
  show (if '\x00' = '\x00' then
      (splitAtEq (k.data ++ '=' :: v.data).reverse.reverse).map
        (fun kv => (String.mk kv.1, String.mk kv.2))
    else none) = some (k, v)
  rw [if_pos rfl, List.reverse_reverse, splitAtEq_encode hk]
  rfl

theorem decodeEntries_encode : ∀ {env : List (String × String)} {body : List Nat},
    encodeEntries env = .ok body → (∀ p ∈ env, '=' ∉ p.1.data) →
    decodeEntries env.length body = some env := by
  intro env
  induction env with
  | nil =>
    intro body h _
    have hb : body = [] := (Except.ok.inj h).symm
    subst hb
    rfl
  | cons p env ih =>
    intro body h hkeys
    obtain ⟨key, value⟩ := p
    simp only [encodeEntries] at h
    split at h
    · exact absurd h (by simp)
    · rename_i size hsize
      split at h
      · exact absurd h (by simp)
      · rename_i more hmore
        have hb : body = size ++ recordBytes key value ++ more :=
          (Except.ok.inj h).symm
        subst hb
        show decodeEntries (env.length + 1) _ = _
        have hint := readInt32LE_int32LE hsize (recordBytes key value ++ more)
        have hrec : utf8DecodeString (recordBytes key value) =
            some (key ++ "=" ++ value ++ "\x00") := utf8DecodeString_encode _
        have hpr := @parseRecord_encode key value (hkeys (key, value) (by simp))
        have hih := ih hmore (fun q hq => hkeys q (List.mem_cons_of_mem _ hq))
        simp only [decodeEntries, List.append_assoc, hint, List.take_left,
          List.drop_left, hrec, hpr, hih, eq_self_iff_true, if_true]

/-- C6 counterexample: For the merged mapping `[("A=B", "C")]` — a key
containing `'='` — encoding succeeds but decoding the blob yields
`[("A", "B=C")]`, not the encoded mapping: the claimed round-trip law does
not hold for every merged mapping. -/
theorem env_blob_round_trip_fails_on_eq_key :
    (encodeBlob [("A=B", "C")]).toOption.bind decodeBlob = some [("A", "B=C")] ∧
    some [("A", "B=C")] ≠ some [("A=B", "C")] := by
  constructor
  · rfl
  · decide

/-- C6 (amended): For every merged environment mapping that the
aggregator can encode (`encodeBlob` succeeds, which enforces the
`writeInt32LE` int32 range checks) and whose keys contain no `'='`,
decoding the blob — a 4-byte little-endian entry count, then per entry a
4-byte little-endian length `L` and `L` bytes of UTF-8 `"key=value\x00"` —
reconstructs exactly the encoded mapping. -/
theorem env_blob_round_trip {env : List (String × String)} {bs : List Nat}
    (henc : encodeBlob env = .ok bs) (hkeys : ∀ p ∈ env, '=' ∉ p.1.data) :
    decodeBlob bs = some env := by
  simp only [encodeBlob] at henc
  split at henc
  · exact absurd henc (by simp)
  · rename_i count hcount
    split at henc
    · exact absurd henc (by simp)
    · rename_i body hbody
      have hb : bs = count ++ body := (Except.ok.inj henc).symm
      subst hb
      unfold decodeBlob
      rw [readInt32LE_int32LE hcount]
      exact decodeEntries_encode hbody hkeys

/-- Witness for C6 at the concrete mapping `[("X", "1")]`. -/
theorem env_blob_round_trip_witness :
    decodeBlob [1, 0, 0, 0, 4, 0, 0, 0, 88, 61, 49, 0] = some [("X", "1")] :=
  @env_blob_round_trip [("X", "1")] [1, 0, 0, 0, 4, 0, 0, 0, 88, 61, 49, 0] rfl (by decide)

end CodeQLAction
